import Mathlib

/-!
Shallow embedding of the useEnhanceChildren hook
(src/hooks/useEnhanceChildren.ts of lucaspanizio/use-enhance-children).

The hook walks a React children tree and injects (inherits) props into
component-typed elements, either per displayName (Map mode, mapProps) or
uniformly (Broadcast mode, props).  We model React nodes as a tree, props
objects as association lists with JS object-spread semantics (key order is
insertion order, later spreads override earlier ones in place), and the
options object as a structure whose two fields may each be present or
absent, mirroring the runtime check of mapProps membership in options.
-/

namespace EnhanceChildren

/-- Attribute (prop) values carried by nodes.  A concrete inductive is
enough for the properties verified here. -/
inductive Value where
  | str (s : String)
  | int (n : Int)
  | bool (b : Bool)
deriving DecidableEq, Repr

/-- A props object: an association list from string keys to values.
JS objects have unique keys; uniqueness is imposed by hypotheses where a
property needs it. -/
abbrev AttrSet := List (String × Value)

/-- First-match key lookup, modelling JS property access obj[k]. -/
def lookupAttr : AttrSet → String → Option Value
  | [], _ => none
  | (k, v) :: rest, key => if k = key then some v else lookupAttr rest key

/-- Whether a props object has the given key. -/
def containsKey (a : AttrSet) (key : String) : Bool :=
  (lookupAttr a key).isSome

/-- JS object spread of a then b, as in Object.assign: the keys of a in
their order, with values overridden by b where b has the key, followed by
the keys of b not present in a, in the order of b. -/
def mergeAttrs (a b : AttrSet) : AttrSet :=
  a.map (fun kv => (kv.1, ((lookupAttr b kv.1).getD kv.2)))
    ++ b.filter (fun kv => !(containsKey a kv.1))

/-- The props of React.cloneElement(child, config): Object.assign on an
empty object, the original props of child, then config.  In the hook,
config is the spread of inheritedProps then childProps, so own props win
on conflicts and keep their positions. -/
def cloneProps (own config : AttrSet) : AttrSet :=
  mergeAttrs own config

/-- The type-tag of an element: a primitive markup tag (a plain string
such as div, never augmented) or a component reference carrying an
optional displayName. -/
inductive TypeTag where
  | primitive (tag : String)
  | component (displayName : Option String)
deriving DecidableEq, Repr

/-- A React node: text, number, null/undefined, an array of nodes, or an
element with a type-tag, own props, and the children prop (none when the
props object has no children entry). -/
inductive Node where
  | text (s : String)
  | num (n : Int)
  | null
  | list (xs : List Node)
  | element (tag : TypeTag) (attrs : AttrSet) (children : Option Node)
deriving Repr

/-- JS truthiness of a node value, used by the guard on childProps
children in the hook: null/undefined, the empty string and 0 are falsy;
arrays and elements are truthy. -/
def Node.truthy : Node → Bool
  | .null => false
  | .text s => s ≠ ""
  | .num n => n ≠ 0
  | .list _ => true
  | .element _ _ _ => true

/-- A mapProps object: displayName keys to props objects. -/
abbrev MapProps := List (String × AttrSet)

/-- First-match lookup in a mapProps object, modelling indexing of
mapProps by the child name. -/
def lookupMap : MapProps → String → Option AttrSet
  | [], _ => none
  | (k, a) :: rest, key => if k = key then some a else lookupMap rest key

/-- The options argument.  The source types it as a discriminated union,
but at runtime it is one object whose mapProps and props keys may each be
present or absent; the implementation only tests whether mapProps is
present. -/
structure Options where
  mapProps : Option MapProps
  props : Option AttrSet
deriving Repr

/-- The inheritedProps computed for a child with the given coalesced
name: if mapProps is present, index it by the child name, otherwise take
the props field.  none models undefined. -/
def candidate (cfg : Options) (childName : String) : Option AttrSet :=
  match cfg.mapProps with
  | some m => lookupMap m childName
  | none => cfg.props

/-- The candidate flattened through the guard of the hook (inheritedProps
truthy and with at least one key): an undefined candidate behaves exactly
like an empty one, both fail the guard, so both are represented by []. -/
def effCandidate (cfg : Options) (childName : String) : AttrSet :=
  (candidate cfg childName).getD []

mutual

/-- The enhance closure of the hook, applied to one child: non-elements
(text, numbers, null, arrays) and string-tagged (primitive) elements pass
through; a component element whose candidate has at least one key is
cloned with config the spread of inheritedProps then childProps, its
children untouched; otherwise, if the children prop is truthy, the child
is cloned with its children mapped recursively; otherwise it is returned
unchanged.  The child name is displayName coalesced to the empty
string. -/
def enhance (cfg : Options) : Node → Node
  | .text s => .text s
  | .num n => .num n
  | .null => .null
  | .list xs => .list xs
  | .element (.primitive s) attrs ch => .element (.primitive s) attrs ch
  | .element (.component dn) attrs ch =>
    if (effCandidate cfg (dn.getD "")).isEmpty then
      match ch with
      | some c =>
        if c.truthy then
          .element (.component dn) attrs (some (childrenMap cfg c))
        else
          .element (.component dn) attrs (some c)
      | none => .element (.component dn) attrs none
    else
      .element (.component dn)
        (cloneProps attrs (mergeAttrs (effCandidate cfg (dn.getD "")) attrs)) ch

/-- React.Children.map with the enhance closure: applied to an array it
maps every member (nested arrays member-wise, nulls included, order and
positions preserved); applied to anything else it applies the closure
directly. -/
def childrenMap (cfg : Options) : Node → Node
  | .list xs => .list (childrenMapList cfg xs)
  | .text s => enhance cfg (.text s)
  | .num n => enhance cfg (.num n)
  | .null => enhance cfg .null
  | .element t a c => enhance cfg (.element t a c)

/-- Member-wise mapping of an array of children. -/
def childrenMapList (cfg : Options) : List Node → List Node
  | [] => []
  | x :: xs => childrenMap cfg x :: childrenMapList cfg xs

end

/-- The whole hook body (the useMemo wrapper is semantically the
identity): React.Children.map of the children with the enhance
closure. -/
def enhanceChildren (cfg : Options) (children : Node) : Node :=
  childrenMap cfg children

/-- The own props of a node (the empty set for non-elements). -/
def attrsOf : Node → AttrSet
  | .element _ a _ => a
  | _ => []

/-- The children prop of a node (none for non-elements). -/
def childrenOf : Node → Option Node
  | .element _ _ c => c
  | _ => none

mutual

/-- Number of nodes in a tree: every constructor counts one, array
members and element children are counted recursively. -/
def nodeCount : Node → Nat
  | .text _ => 1
  | .num _ => 1
  | .null => 1
  | .list xs => 1 + nodeCountList xs
  | .element _ _ (some c) => 1 + nodeCount c
  | .element _ _ none => 1

/-- Sum of node counts over an array. -/
def nodeCountList : List Node → Nat
  | [] => 0
  | x :: xs => nodeCount x + nodeCountList xs

end

mutual

/-- The shape of a tree: the tree with every attribute set erased.  Two
trees with the same shape have the same node count, the same nesting
structure, the same constructor (text, number, null, array, element) and
type-tag at every position, and the same member order in every array. -/
def eraseProps : Node → Node
  | .text s => .text s
  | .num n => .num n
  | .null => .null
  | .list xs => .list (erasePropsList xs)
  | .element t _ (some c) => .element t [] (some (eraseProps c))
  | .element t _ none => .element t [] none

/-- Member-wise shape of an array. -/
def erasePropsList : List Node → List Node
  | [] => []
  | x :: xs => eraseProps x :: erasePropsList xs

end

/-- The keys of a props object are pairwise distinct, as they are for an
actual JS object. -/
def attrsWF (a : AttrSet) : Prop :=
  (a.map Prod.fst).Nodup

/-- Every props object contained in the options is a JS object, i.e. has
pairwise distinct keys. -/
def optionsWF (cfg : Options) : Prop :=
  (∀ m, cfg.mapProps = some m → ∀ p ∈ m, attrsWF p.2) ∧
  (∀ p, cfg.props = some p → attrsWF p)

/-- First of two options, as JS evaluates a chain of fallbacks. -/
def firstSome {α : Type} (o p : Option α) : Option α :=
  match o with
  | some v => some v
  | none => p

theorem lookupAttr_append (l1 l2 : AttrSet) (k : String) :
    lookupAttr (l1 ++ l2) k = firstSome (lookupAttr l1 k) (lookupAttr l2 k) := by
  induction l1 with
  | nil => simp [lookupAttr, firstSome]
  | cons kv rest ih =>
    obtain ⟨k', v⟩ := kv
    by_cases h : k' = k <;> simp [lookupAttr, h, ih, firstSome]

theorem lookupAttr_map_override (a b : AttrSet) (k : String) :
    lookupAttr (a.map (fun kv => (kv.1, ((lookupAttr b kv.1).getD kv.2)))) k
      = (lookupAttr a k).map (fun v => (lookupAttr b k).getD v) := by
  induction a with
  | nil => simp [lookupAttr]
  | cons kv rest ih =>
    obtain ⟨k', v⟩ := kv
    by_cases h : k' = k <;> simp [lookupAttr, h, ih]

theorem lookupAttr_filter_not_contains (a b : AttrSet) (k : String) :
    lookupAttr (b.filter (fun kv => !(containsKey a kv.1))) k
      = if containsKey a k then none else lookupAttr b k := by
  induction b with
  | nil => simp [lookupAttr]
  | cons kv rest ih =>
    obtain ⟨k', v⟩ := kv
    by_cases h : k' = k
    · subst h
      by_cases hc : containsKey a k' <;> simp [lookupAttr, hc, ih]
    · by_cases hc : containsKey a k' <;> simp [lookupAttr, h, hc, ih]

theorem lookupAttr_mergeAttrs (a b : AttrSet) (k : String) :
    lookupAttr (mergeAttrs a b) k = firstSome (lookupAttr b k) (lookupAttr a k) := by
  unfold mergeAttrs
  rw [lookupAttr_append, lookupAttr_map_override, lookupAttr_filter_not_contains]
  rcases ha : lookupAttr a k with _ | v
  · have hc : containsKey a k = false := by simp [containsKey, ha]
    rcases hb : lookupAttr b k with _ | w <;> simp [firstSome, hc]
  · have hc : containsKey a k = true := by simp [containsKey, ha]
    rcases hb : lookupAttr b k with _ | w <;> simp [firstSome, hc]

/-- The merged props the hook gives to a matched child: the lookup of a
key returns the own value when present, otherwise the injected value. -/
theorem lookupAttr_cloneProps (own ip : AttrSet) (k : String) :
    lookupAttr (cloneProps own (mergeAttrs ip own)) k
      = firstSome (lookupAttr own k) (lookupAttr ip k) := by
  unfold cloneProps
  rw [lookupAttr_mergeAttrs, lookupAttr_mergeAttrs]
  rcases lookupAttr own k with _ | v <;> rcases lookupAttr ip k with _ | w <;> simp [firstSome]


theorem containsKey_of_mem {a : AttrSet} {kv : String × Value} (h : kv ∈ a) :
    containsKey a kv.1 = true := by
  induction a with
  | nil => simp at h
  | cons kv' rest ih =>
    rcases List.mem_cons.mp h with h | h
    · subst h
      simp [containsKey, lookupAttr]
    · by_cases he : kv'.1 = kv.1
      · simp [containsKey, lookupAttr, he]
      · simpa [containsKey, lookupAttr, he] using ih h

theorem lookupAttr_of_mem_nodup {b : AttrSet} (hb : attrsWF b)
    {kv : String × Value} (h : kv ∈ b) : lookupAttr b kv.1 = some kv.2 := by
  induction b with
  | nil => simp at h
  | cons kv' rest ih =>
    have hb' : kv'.1 ∉ rest.map Prod.fst ∧ attrsWF rest := by
      simpa [attrsWF, List.nodup_cons] using hb
    rcases List.mem_cons.mp h with h | h
    · subst h
      simp [lookupAttr]
    · have hne : kv'.1 ≠ kv.1 := by
        intro he
        exact hb'.1 (he ▸ List.mem_map_of_mem Prod.fst h)
      simpa [lookupAttr, hne] using ih hb'.2 h

theorem lookupAttr_some_mem {a : AttrSet} {k : String} {v : Value}
    (h : lookupAttr a k = some v) : (k, v) ∈ a := by
  induction a with
  | nil => simp [lookupAttr] at h
  | cons kv rest ih =>
    obtain ⟨k', v'⟩ := kv
    by_cases he : k' = k
    · subst he
      simp [lookupAttr] at h
      simp [h]
    · simp [lookupAttr, he] at h
      simp [ih h]

theorem lookupMap_some_mem {m : MapProps} {k : String} {a : AttrSet}
    (h : lookupMap m k = some a) : (k, a) ∈ m := by
  induction m with
  | nil => simp [lookupMap] at h
  | cons kv rest ih =>
    obtain ⟨k', a'⟩ := kv
    by_cases he : k' = k
    · subst he
      simp [lookupMap] at h
      simp [h]
    · simp [lookupMap, he] at h
      simp [ih h]

/-- Entry-value consistency: every entry of the list carries the value
that lookup finds for its key.  JS objects have this property. -/
def consistentA (m : AttrSet) : Prop :=
  ∀ kv ∈ m, lookupAttr m kv.1 = some kv.2

/-- A key occurs in the merged props of a matched child exactly when it
occurs among the own props or the injected ones. -/
theorem containsKey_cloneProps (own ip : AttrSet) (k : String) :
    containsKey (cloneProps own (mergeAttrs ip own)) k
      = (containsKey own k || containsKey ip k) := by
  unfold containsKey
  rw [lookupAttr_cloneProps]
  rcases lookupAttr own k with _ | v <;> rcases lookupAttr ip k with _ | w <;> simp [firstSome]

theorem containsKey_mergeAttrs (a b : AttrSet) (k : String) :
    containsKey (mergeAttrs a b) k = (containsKey a k || containsKey b k) := by
  unfold containsKey
  rw [lookupAttr_mergeAttrs]
  rcases lookupAttr a k with _ | v <;> rcases lookupAttr b k with _ | w <;> simp [firstSome]

theorem mem_mergeAttrs_cases {a b : AttrSet} {kv : String × Value}
    (h : kv ∈ mergeAttrs a b) :
    (∃ kv' ∈ a, kv = (kv'.1, ((lookupAttr b kv'.1).getD kv'.2)))
      ∨ (kv ∈ b ∧ containsKey a kv.1 = false) := by
  unfold mergeAttrs at h
  rcases List.mem_append.mp h with h | h
  · rcases List.mem_map.mp h with ⟨kv', hkv', he⟩
    exact Or.inl ⟨kv', hkv', he.symm⟩
  · have hf := List.mem_filter.mp h
    exact Or.inr ⟨hf.1, by simpa using hf.2⟩

theorem mem_mergeAttrs {a b : AttrSet} {kv : String × Value}
    (h : kv ∈ mergeAttrs a b) :
    (containsKey a kv.1 = true) ∨ kv ∈ b := by
  rcases mem_mergeAttrs_cases h with ⟨kv', hkv', he⟩ | ⟨hb, _⟩
  · left
    subst he
    simpa using containsKey_of_mem hkv'
  · exact Or.inr hb

/-- Merged props are entry-value consistent as soon as the first set is
covered by the second and the second is consistent off the first. -/
theorem consistentA_mergeAttrs (a b : AttrSet)
    (h1 : ∀ kv ∈ a, containsKey b kv.1 = true)
    (h2 : ∀ kv ∈ b, containsKey a kv.1 = false → lookupAttr b kv.1 = some kv.2) :
    consistentA (mergeAttrs a b) := by
  intro kv hm
  rw [lookupAttr_mergeAttrs]
  rcases mem_mergeAttrs_cases hm with ⟨kv', hkv', he⟩ | ⟨hb, hnc⟩
  · subst he
    rcases hbk : lookupAttr b kv'.1 with _ | u
    · have hco := h1 kv' hkv'
      simp [containsKey, hbk] at hco
    · simp [hbk, firstSome]
  · rw [h2 kv hb hnc]
    simp [firstSome]

/-- Consistency of the merged props of a matched child, provided the
injected set has JS-object keys. -/
theorem consistentA_cloneProps (own ip : AttrSet) (hip : attrsWF ip) :
    consistentA (cloneProps own (mergeAttrs ip own)) := by
  unfold cloneProps
  apply consistentA_mergeAttrs
  · intro kv hkv
    rw [containsKey_mergeAttrs]
    simp [containsKey_of_mem hkv]
  · intro kv hkv hnc
    rw [lookupAttr_mergeAttrs]
    have ha : lookupAttr own kv.1 = none := by
      simpa [containsKey, Option.isSome_iff_exists] using hnc
    rcases mem_mergeAttrs_cases hkv with ⟨kv', hkv', he⟩ | ⟨hb, _⟩
    · have hk1 : kv.1 = kv'.1 := by rw [he]
      have ha' : lookupAttr own kv'.1 = none := hk1 ▸ ha
      have he' : kv = kv' := by
        rw [he, ha']
        simp
      rw [ha, he']
      simpa [firstSome] using lookupAttr_of_mem_nodup hip hkv'
    · exact absurd (containsKey_of_mem hb) (by simp [hnc])

/-- Re-merging an injected set whose keys all already occur in a
consistent props object is the identity. -/
theorem cloneProps_inject_idem (m b : AttrSet)
    (hc : consistentA m)
    (hk : ∀ k, containsKey b k = true → containsKey m k = true) :
    cloneProps m (mergeAttrs b m) = m := by
  show (m.map (fun kv => (kv.1, ((lookupAttr (mergeAttrs b m) kv.1).getD kv.2))))
      ++ ((mergeAttrs b m).filter (fun kv => !(containsKey m kv.1))) = m
  have h1 : (m.map (fun kv => (kv.1, ((lookupAttr (mergeAttrs b m) kv.1).getD kv.2)))) = m := by
    have hcg : ∀ kv ∈ m, (kv.1, ((lookupAttr (mergeAttrs b m) kv.1).getD kv.2)) = id kv := by
      intro kv hkv
      rw [lookupAttr_mergeAttrs, hc kv hkv]
      simp [firstSome]
    rw [List.map_congr_left hcg, List.map_id]
  have h2 : ((mergeAttrs b m).filter (fun kv => !(containsKey m kv.1))) = [] := by
    rw [List.filter_eq_nil_iff]
    intro kv hkv
    rcases mem_mergeAttrs hkv with h | h
    · simp [hk kv.1 h]
    · simp [containsKey_of_mem h]
  rw [h1, h2, List.append_nil]


/-- Structural induction over the node tree, with hypotheses for array
members and element children. -/
theorem Node.strongInd (P : Node → Prop)
    (htext : ∀ s, P (.text s)) (hnum : ∀ n, P (.num n)) (hnull : P .null)
    (hlist : ∀ xs, (∀ x ∈ xs, P x) → P (.list xs))
    (helem : ∀ t a ch, (∀ c, ch = some c → P c) → P (.element t a ch)) :
    ∀ n, P n := by
  have aux : ∀ (k : Nat) (n : Node), sizeOf n ≤ k → P n := by
    intro k
    induction k with
    | zero =>
      intro n h
      exfalso
      cases n <;> simp_arith [Node.text.sizeOf_spec, Node.num.sizeOf_spec,
        Node.null.sizeOf_spec, Node.list.sizeOf_spec, Node.element.sizeOf_spec] at h
    | succ k ih =>
      intro n h
      match n with
      | .text s => exact htext s
      | .num n => exact hnum n
      | .null => exact hnull
      | .list xs =>
        refine hlist xs (fun x hx => ih x ?_)
        have h1 : sizeOf x < sizeOf xs := List.sizeOf_lt_of_mem hx
        simp [Node.list.sizeOf_spec] at h
        omega
      | .element t a ch =>
        refine helem t a ch (fun c hc => ih c ?_)
        subst hc
        simp [Node.element.sizeOf_spec] at h
        have h1 : (1:Nat) ≤ sizeOf t := by
          cases t <;> simp_arith [TypeTag.primitive.sizeOf_spec, TypeTag.component.sizeOf_spec]
        omega
  exact fun n => aux (sizeOf n) n le_rfl

theorem enhance_text (cfg : Options) (s : String) :
    enhance cfg (.text s) = .text s := by simp [enhance]

theorem enhance_num (cfg : Options) (n : Int) :
    enhance cfg (.num n) = .num n := by simp [enhance]

theorem enhance_null (cfg : Options) :
    enhance cfg .null = .null := by simp [enhance]

theorem enhance_list (cfg : Options) (xs : List Node) :
    enhance cfg (.list xs) = .list xs := by simp [enhance]

theorem enhance_primitive (cfg : Options) (s : String) (attrs : AttrSet)
    (ch : Option Node) :
    enhance cfg (.element (.primitive s) attrs ch) = .element (.primitive s) attrs ch := by
  simp [enhance]

theorem enhance_matched (cfg : Options) (dn : Option String) (attrs : AttrSet)
    (ch : Option Node) (h : (effCandidate cfg (dn.getD "")).isEmpty = false) :
    enhance cfg (.element (.component dn) attrs ch)
      = .element (.component dn)
          (cloneProps attrs (mergeAttrs (effCandidate cfg (dn.getD "")) attrs)) ch := by
  rw [enhance.eq_def]
  simp [h]

theorem childrenMap_text (cfg : Options) (s : String) :
    childrenMap cfg (.text s) = .text s := by simp [childrenMap, enhance]

theorem childrenMap_num (cfg : Options) (n : Int) :
    childrenMap cfg (.num n) = .num n := by simp [childrenMap, enhance]

theorem childrenMap_null (cfg : Options) :
    childrenMap cfg .null = .null := by simp [childrenMap, enhance]

theorem childrenMap_list (cfg : Options) (xs : List Node) :
    childrenMap cfg (.list xs) = .list (childrenMapList cfg xs) := by
  simp [childrenMap]

theorem childrenMap_elem (cfg : Options) (t : TypeTag) (a : AttrSet) (c : Option Node) :
    childrenMap cfg (.element t a c) = enhance cfg (.element t a c) := by
  simp [childrenMap]

theorem childrenMapList_eq_map (cfg : Options) (xs : List Node) :
    childrenMapList cfg xs = xs.map (childrenMap cfg) := by
  induction xs with
  | nil => simp [childrenMapList]
  | cons x xs ih => simp [childrenMapList, ih]

/-- A falsy child is left as it is by the traversal. -/
theorem childrenMap_falsy (cfg : Options) (c : Node) (h : c.truthy = false) :
    childrenMap cfg c = c := by
  cases c with
  | text s => exact childrenMap_text cfg s
  | num n => exact childrenMap_num cfg n
  | null => exact childrenMap_null cfg
  | list xs => simp [Node.truthy] at h
  | element t a ch => simp [Node.truthy] at h

theorem enhance_unmatched (cfg : Options) (dn : Option String) (attrs : AttrSet)
    (ch : Option Node) (h : (effCandidate cfg (dn.getD "")).isEmpty = true) :
    enhance cfg (.element (.component dn) attrs ch)
      = .element (.component dn) attrs (ch.map (childrenMap cfg)) := by
  cases ch with
  | none =>
    rw [enhance.eq_def]
    simp [h]
  | some c =>
    cases hc : c.truthy with
    | true =>
      rw [enhance.eq_def]
      simp [h, hc]
    | false =>
      rw [enhance.eq_def]
      simp [h, hc, childrenMap_falsy cfg c hc]

/-- The closure maps elements to elements with the same type-tag. -/
theorem enhance_element_shape (cfg : Options) (t : TypeTag) (a : AttrSet)
    (c : Option Node) :
    ∃ a' c', enhance cfg (.element t a c) = .element t a' c' := by
  cases t with
  | primitive s => exact ⟨a, c, enhance_primitive cfg s a c⟩
  | component dn =>
    cases h : (effCandidate cfg (dn.getD "")).isEmpty with
    | true => exact ⟨a, c.map (childrenMap cfg), enhance_unmatched cfg dn a c h⟩
    | false => exact ⟨_, c, enhance_matched cfg dn a c h⟩

/-- The traversal preserves truthiness of children. -/
theorem childrenMap_truthy (cfg : Options) (c : Node) (h : c.truthy = true) :
    (childrenMap cfg c).truthy = true := by
  cases c with
  | text s => rw [childrenMap_text]; exact h
  | num n => rw [childrenMap_num]; exact h
  | null => simp [Node.truthy] at h
  | list xs => rw [childrenMap_list]; simp [Node.truthy]
  | element t a ch =>
    rw [childrenMap_elem]
    obtain ⟨a', c', he⟩ := enhance_element_shape cfg t a ch
    rw [he]
    simp [Node.truthy]

theorem eraseProps_elem (t : TypeTag) (a : AttrSet) (ch : Option Node) :
    eraseProps (.element t a ch) = .element t [] (ch.map eraseProps) := by
  cases ch <;> simp [eraseProps]

theorem erasePropsList_eq_map (xs : List Node) :
    erasePropsList xs = xs.map eraseProps := by
  induction xs with
  | nil => simp [erasePropsList]
  | cons x xs ih => simp [erasePropsList, ih]

theorem nodeCount_elem (t : TypeTag) (a : AttrSet) (ch : Option Node) :
    nodeCount (.element t a ch) = 1 + (ch.map nodeCount).getD 0 := by
  cases ch <;> simp [nodeCount]

theorem nodeCountList_eq_sum (xs : List Node) :
    nodeCountList xs = (xs.map nodeCount).sum := by
  induction xs with
  | nil => simp [nodeCountList]
  | cons x xs ih => simp [nodeCountList, ih]

/-- Master preservation lemma: the traversal keeps the shape (the tree
with attribute sets erased) and the node count of its input. -/
theorem preserves_shape_count (cfg : Options) : ∀ n : Node,
    (eraseProps (enhance cfg n) = eraseProps n
      ∧ nodeCount (enhance cfg n) = nodeCount n)
    ∧ (eraseProps (childrenMap cfg n) = eraseProps n
      ∧ nodeCount (childrenMap cfg n) = nodeCount n) := by
  refine Node.strongInd _ ?_ ?_ ?_ ?_ ?_
  · intro s
    simp [enhance_text, childrenMap_text]
  · intro n
    simp [enhance_num, childrenMap_num]
  · simp [enhance_null, childrenMap_null]
  · intro xs ih
    refine ⟨by simp [enhance_list], ?_, ?_⟩
    · rw [childrenMap_list, childrenMapList_eq_map]
      show Node.list (erasePropsList (xs.map (childrenMap cfg)))
        = Node.list (erasePropsList xs)
      rw [erasePropsList_eq_map, erasePropsList_eq_map, List.map_map]
      exact congrArg Node.list (List.map_congr_left (fun x hx => (ih x hx).2.1))
    · rw [childrenMap_list, childrenMapList_eq_map]
      show 1 + nodeCountList (xs.map (childrenMap cfg)) = 1 + nodeCountList xs
      rw [nodeCountList_eq_sum, nodeCountList_eq_sum, List.map_map]
      exact congrArg (1 + ·) (congrArg List.sum (List.map_congr_left (fun x hx => (ih x hx).2.2)))
  · intro t a ch ih
    have hcm : childrenMap cfg (.element t a ch) = enhance cfg (.element t a ch) :=
      childrenMap_elem cfg t a ch
    suffices h : eraseProps (enhance cfg (.element t a ch)) = eraseProps (.element t a ch)
        ∧ nodeCount (enhance cfg (.element t a ch)) = nodeCount (.element t a ch) by
      exact ⟨h, by rw [hcm]; exact h⟩
    cases t with
    | primitive s => simp [enhance_primitive]
    | component dn =>
      cases h : (effCandidate cfg (dn.getD "")).isEmpty with
      | false =>
        rw [enhance_matched cfg dn a ch h]
        simp [eraseProps_elem, nodeCount_elem]
      | true =>
        rw [enhance_unmatched cfg dn a ch h]
        cases ch with
        | none => simp
        | some c =>
          have ihc := ih c rfl
          simp [eraseProps_elem, nodeCount_elem, ihc.2.1, ihc.2.2]

/-- In Map mode the candidate never reads the props field, so a stray
props field next to mapProps is invisible to the whole traversal. -/
theorem props_ignored_with_mapProps (m : MapProps) (p : AttrSet) : ∀ n : Node,
    enhance ⟨some m, some p⟩ n = enhance ⟨some m, none⟩ n
    ∧ childrenMap ⟨some m, some p⟩ n = childrenMap ⟨some m, none⟩ n := by
  have hcand : ∀ name, effCandidate ⟨some m, some p⟩ name = effCandidate ⟨some m, none⟩ name :=
    fun _ => rfl
  refine Node.strongInd _ ?_ ?_ ?_ ?_ ?_
  · intro s
    simp [enhance_text, childrenMap_text]
  · intro n
    simp [enhance_num, childrenMap_num]
  · simp [enhance_null, childrenMap_null]
  · intro xs ih
    refine ⟨by simp [enhance_list], ?_⟩
    rw [childrenMap_list, childrenMap_list, childrenMapList_eq_map, childrenMapList_eq_map]
    exact congrArg Node.list (List.map_congr_left (fun x hx => (ih x hx).2))
  · intro t a ch ih
    suffices h : enhance ⟨some m, some p⟩ (.element t a ch) = enhance ⟨some m, none⟩ (.element t a ch) by
      exact ⟨h, by rw [childrenMap_elem, childrenMap_elem]; exact h⟩
    cases t with
    | primitive s => rw [enhance_primitive, enhance_primitive]
    | component dn =>
      cases h : (effCandidate ⟨some m, none⟩ (dn.getD "")).isEmpty with
      | false =>
        rw [enhance_matched _ dn a ch (by rw [hcand]; exact h),
          enhance_matched _ dn a ch h, hcand]
      | true =>
        rw [enhance_unmatched _ dn a ch (by rw [hcand]; exact h),
          enhance_unmatched _ dn a ch h]
        cases ch with
        | none => rfl
        | some c => simp [(ih c rfl).2]

/-- Every candidate computed from JS-object options has JS-object keys. -/
theorem effCandidate_WF (cfg : Options) (hWF : optionsWF cfg) (name : String) :
    attrsWF (effCandidate cfg name) := by
  rcases hm : cfg.mapProps with _ | m
  · rcases hp : cfg.props with _ | p
    · simp [effCandidate, candidate, hm, hp, attrsWF]
    · simpa [effCandidate, candidate, hm, hp] using hWF.2 p hp
  · rcases hl : lookupMap m name with _ | ip
    · simp [effCandidate, candidate, hm, hl, attrsWF]
    · simpa [effCandidate, candidate, hm, hl] using hWF.1 m hm (name, ip) (lookupMap_some_mem hl)

/-- Master idempotence lemma: with JS-object options, a second pass of
the traversal leaves the first pass's output unchanged. -/
theorem enhance_idem (cfg : Options) (hWF : optionsWF cfg) : ∀ n : Node,
    enhance cfg (enhance cfg n) = enhance cfg n
    ∧ childrenMap cfg (childrenMap cfg n) = childrenMap cfg n := by
  refine Node.strongInd _ ?_ ?_ ?_ ?_ ?_
  · intro s
    simp [enhance_text, childrenMap_text]
  · intro n
    simp [enhance_num, childrenMap_num]
  · simp [enhance_null, childrenMap_null]
  · intro xs ih
    refine ⟨by simp [enhance_list], ?_⟩
    rw [childrenMap_list, childrenMap_list, childrenMapList_eq_map, childrenMapList_eq_map,
      List.map_map]
    exact congrArg Node.list (List.map_congr_left (fun x hx => (ih x hx).2))
  · intro t a ch ih
    suffices h : enhance cfg (enhance cfg (.element t a ch)) = enhance cfg (.element t a ch) by
      refine ⟨h, ?_⟩
      rw [childrenMap_elem]
      obtain ⟨a', c', he⟩ := enhance_element_shape cfg t a ch
      rw [he, childrenMap_elem, ← he, h]
    cases t with
    | primitive s => rw [enhance_primitive, enhance_primitive]
    | component dn =>
      cases h : (effCandidate cfg (dn.getD "")).isEmpty with
      | false =>
        rw [enhance_matched cfg dn a ch h, enhance_matched cfg dn _ ch h]
        have hip : attrsWF (effCandidate cfg (dn.getD "")) := effCandidate_WF cfg hWF _
        rw [cloneProps_inject_idem _ _ (consistentA_cloneProps a _ hip) ?_]
        intro k hk
        rw [containsKey_cloneProps]
        simp [hk]
      | true =>
        rw [enhance_unmatched cfg dn a ch h, enhance_unmatched cfg dn a _ h]
        cases ch with
        | none => rfl
        | some c => simp [(ih c rfl).2]

/-- C1: for every Element node that is augmented (in either Map or
Broadcast mode), every attribute key present on the node itself keeps
its own value in the merged result, and injected keys not present on the
node appear with the injected value. -/
theorem C1_own_attrs_win (cfg : Options) (dn : Option String) (own : AttrSet)
    (ch : Option Node) (k : String)
    (hmatch : (effCandidate cfg (dn.getD "")).isEmpty = false) :
    (∀ v, lookupAttr own k = some v →
      lookupAttr (attrsOf (enhance cfg (.element (.component dn) own ch))) k = some v)
    ∧ (lookupAttr own k = none →
      lookupAttr (attrsOf (enhance cfg (.element (.component dn) own ch))) k
        = lookupAttr (effCandidate cfg (dn.getD "")) k) := by
  rw [enhance_matched cfg dn own ch hmatch]
  simp only [attrsOf]
  rw [lookupAttr_cloneProps]
  constructor
  · intro v hv
    rw [hv]
    rfl
  · intro hn
    rw [hn]
    rfl

/-- Witness for C1, in Broadcast mode: the conflicting key title keeps
the child value, the non-conflicting key extra arrives injected. -/
theorem C1_witness :
    lookupAttr (attrsOf (enhance ⟨none, some [("title", Value.str "parent"), ("extra", Value.str "e")]⟩
      (.element (.component (some "Card.Header")) [("title", Value.str "child")] none))) "title"
      = some (Value.str "child")
    ∧ lookupAttr (attrsOf (enhance ⟨none, some [("title", Value.str "parent"), ("extra", Value.str "e")]⟩
      (.element (.component (some "Card.Header")) [("title", Value.str "child")] none))) "extra"
      = some (Value.str "e") := by
  constructor
  · exact (C1_own_attrs_win ⟨none, some [("title", Value.str "parent"), ("extra", Value.str "e")]⟩
      (some "Card.Header") [("title", Value.str "child")] none "title" rfl).1
      (Value.str "child") rfl
  · rw [(C1_own_attrs_win ⟨none, some [("title", Value.str "parent"), ("extra", Value.str "e")]⟩
      (some "Card.Header") [("title", Value.str "child")] none "extra" rfl).2 rfl]
    rfl

/-- C2: the enhanced tree has the same shape as the input: same node
count, same nesting structure, and every array keeps its members in
order and in place, nulls included (the shape function keeps array
member order and the null constructor, so shape equality subsumes order
and null preservation). -/
theorem C2_shape_preserved (cfg : Options) (T : Node) :
    eraseProps (enhanceChildren cfg T) = eraseProps T
    ∧ nodeCount (enhanceChildren cfg T) = nodeCount T :=
  ⟨(preserves_shape_count cfg T).2.1, (preserves_shape_count cfg T).2.2⟩

/-- Counterexample to C3 as stated: a component node with NO displayName
is augmented in Map mode when the map has an empty-string key, because
the implementation coalesces a missing displayName to the empty string
before the lookup.  The node own props were empty, yet the output props
are not. -/
theorem C3_counterexample :
    attrsOf (enhanceChildren ⟨some [("", [("title", Value.str "T")])], none⟩
        (.element (.component none) [] none)) = [("title", Value.str "T")]
    ∧ ([("title", Value.str "T")] : AttrSet) ≠ ([] : AttrSet) := by
  constructor
  · have h1 : enhanceChildren ⟨some [("", [("title", Value.str "T")])], none⟩
        (.element (.component none) [] none)
        = enhance ⟨some [("", [("title", Value.str "T")])], none⟩
          (.element (.component none) [] none) := by
      rw [enhanceChildren, childrenMap_elem]
    rw [h1, enhance_matched ⟨some [("", [("title", Value.str "T")])], none⟩ none [] none rfl]
    rfl
  · decide

/-- C3 amended: in Map mode a component node is augmented iff the map
has an entry for its lookup label, which is its displayName coalesced to
the empty string when missing, with a non-empty attribute set; a
mismatched label, or a missing label when the map has no empty-string
entry, yields no augmentation, and no error is raised. -/
theorem C3_map_mode_targeting (m : MapProps) (dn : Option String) (own : AttrSet)
    (ch : Option Node) :
    (∀ ip, lookupMap m (dn.getD "") = some ip → ip ≠ [] →
      enhance ⟨some m, none⟩ (.element (.component dn) own ch)
        = .element (.component dn) (cloneProps own (mergeAttrs ip own)) ch)
    ∧ ((∀ ip, lookupMap m (dn.getD "") = some ip → ip = []) →
      attrsOf (enhance ⟨some m, none⟩ (.element (.component dn) own ch)) = own) := by
  constructor
  · intro ip hip hne
    have h : (effCandidate ⟨some m, none⟩ (dn.getD "")).isEmpty = false := by
      simp [effCandidate, candidate, hip, hne]
    rw [enhance_matched _ _ _ _ h]
    have he : effCandidate ⟨some m, none⟩ (dn.getD "") = ip := by
      simp [effCandidate, candidate, hip]
    rw [he]
  · intro hno
    have h : (effCandidate ⟨some m, none⟩ (dn.getD "")).isEmpty = true := by
      rcases hl : lookupMap m (dn.getD "") with _ | ip
      · simp [effCandidate, candidate, hl]
      · simp [effCandidate, candidate, hl, hno ip hl]
    rw [enhance_unmatched _ _ _ _ h]
    simp only [attrsOf]

/-- Witness for C3: a matching displayName is augmented, a mismatched
one is not. -/
theorem C3_witness :
    enhance ⟨some [("Card.Header", [("title", Value.str "T")])], none⟩
        (.element (.component (some "Card.Header")) [] none)
      = .element (.component (some "Card.Header")) [("title", Value.str "T")] none
    ∧ attrsOf (enhance ⟨some [("Card.Header", [("title", Value.str "T")])], none⟩
        (.element (.component (some "Other")) [("id", Value.str "x")] none))
      = [("id", Value.str "x")] := by
  constructor
  · exact (C3_map_mode_targeting _ _ _ _).1 [("title", Value.str "T")] rfl (by decide)
  · exact (C3_map_mode_targeting _ _ _ _).2 (fun ip h => by simp [lookupMap] at h)

/-- Counterexample to C4 as stated: in Broadcast mode a component node
nested inside another component node does NOT receive the configured
attribute set, because the outer node is matched and the traversal stops
at matched nodes.  The inner element B below keeps its empty props. -/
theorem C4_counterexample :
    enhanceChildren ⟨none, some [("title", Value.str "T")]⟩
        (.element (.component (some "A")) []
          (some (.element (.component (some "B")) [] none)))
      = .element (.component (some "A")) [("title", Value.str "T")]
          (some (.element (.component (some "B")) [] none))
    ∧ lookupAttr (attrsOf (.element (.component (some "B")) ([] : AttrSet)
        (none : Option Node))) "title" = none := by
  constructor
  · have h1 : enhanceChildren ⟨none, some [("title", Value.str "T")]⟩
        (.element (.component (some "A")) []
          (some (.element (.component (some "B")) [] none)))
        = enhance ⟨none, some [("title", Value.str "T")]⟩
          (.element (.component (some "A")) []
            (some (.element (.component (some "B")) [] none))) := by
      rw [enhanceChildren, childrenMap_elem]
    rw [h1, enhance_matched ⟨none, some [("title", Value.str "T")]⟩ (some "A") []
      (some (.element (.component (some "B")) [] none)) rfl]
    rfl
  · rfl

/-- C4 amended: in Broadcast mode with a non-empty props object, every
component node the enhance closure is applied to receives the configured
attribute set, whatever its displayName (including none); nodes nested
under matched components or under primitive elements are not visited. -/
theorem C4_broadcast_universal (p : AttrSet) (dn : Option String) (own : AttrSet)
    (ch : Option Node) (hp : p ≠ []) :
    enhance ⟨none, some p⟩ (.element (.component dn) own ch)
      = .element (.component dn) (cloneProps own (mergeAttrs p own)) ch := by
  have h : (effCandidate ⟨none, some p⟩ (dn.getD "")).isEmpty = false := by
    simp [effCandidate, candidate, hp]
  rw [enhance_matched _ _ _ _ h]
  rfl

/-- Witness for C4: a labelled and an unlabelled component both receive
the broadcast props. -/
theorem C4_witness :
    enhance ⟨none, some [("title", Value.str "T")]⟩
        (.element (.component (some "Anything")) [] none)
      = .element (.component (some "Anything")) [("title", Value.str "T")] none
    ∧ enhance ⟨none, some [("title", Value.str "T")]⟩
        (.element (.component none) [] none)
      = .element (.component none) [("title", Value.str "T")] none := by
  constructor
  · exact C4_broadcast_universal _ _ _ _ (by decide)
  · exact C4_broadcast_universal _ _ _ _ (by decide)

/-- C5: a matched component node (non-empty candidate) is merged and the
traversal does not descend into it: its children subtree is carried over
unchanged, even if it contains further matchable components. -/
theorem C5_matched_stops_descent (cfg : Options) (dn : Option String) (own : AttrSet)
    (ch : Option Node) (hmatch : (effCandidate cfg (dn.getD "")).isEmpty = false) :
    childrenOf (enhance cfg (.element (.component dn) own ch)) = ch
    ∧ enhance cfg (.element (.component dn) own ch)
      = .element (.component dn)
          (cloneProps own (mergeAttrs (effCandidate cfg (dn.getD "")) own)) ch := by
  rw [enhance_matched cfg dn own ch hmatch]
  exact ⟨rfl, rfl⟩

/-- Witness for C5: the matched outer Card.Header keeps its child, an
inner Card.Header that would itself match, exactly as it was. -/
theorem C5_witness :
    childrenOf (enhance ⟨some [("Card.Header", [("title", Value.str "T")])], none⟩
        (.element (.component (some "Card.Header")) []
          (some (.element (.component (some "Card.Header")) [] none))))
      = some (.element (.component (some "Card.Header")) [] none) :=
  (C5_matched_stops_descent ⟨some [("Card.Header", [("title", Value.str "T")])], none⟩
    (some "Card.Header") []
    (some (.element (.component (some "Card.Header")) [] none)) rfl).1

/-- C6: a component node with an empty (or undefined) candidate has each
of its children independently processed by the same procedure, in order;
with no children it is returned unchanged.  The second conjunct makes
the order preservation on array children explicit. -/
theorem C6_empty_candidate_recurses (cfg : Options) (dn : Option String) (own : AttrSet)
    (ch : Option Node) (hempty : (effCandidate cfg (dn.getD "")).isEmpty = true) :
    enhance cfg (.element (.component dn) own ch)
      = .element (.component dn) own (ch.map (childrenMap cfg))
    ∧ ∀ xs, ch = some (.list xs) →
      enhance cfg (.element (.component dn) own ch)
        = .element (.component dn) own (some (.list (xs.map (childrenMap cfg)))) := by
  refine ⟨enhance_unmatched cfg dn own ch hempty, ?_⟩
  intro xs hxs
  subst hxs
  rw [enhance_unmatched cfg dn own _ hempty]
  simp [childrenMap_list, childrenMapList_eq_map]

/-- Witness for C6: an unmatched Card.Body with an array of two children
has the first one (a matching Card.Header) augmented and order kept. -/
theorem C6_witness :
    enhance ⟨some [("Card.Header", [("title", Value.str "T")])], none⟩
        (.element (.component (some "Card.Body")) []
          (some (.list [.element (.component (some "Card.Header")) [] none, .null])))
      = .element (.component (some "Card.Body")) []
          (some (.list [childrenMap ⟨some [("Card.Header", [("title", Value.str "T")])], none⟩
              (.element (.component (some "Card.Header")) [] none),
            childrenMap ⟨some [("Card.Header", [("title", Value.str "T")])], none⟩ .null])) :=
  ((C6_empty_candidate_recurses ⟨some [("Card.Header", [("title", Value.str "T")])], none⟩
    (some "Card.Body") []
    (some (.list [.element (.component (some "Card.Header")) [] none, .null])) rfl).2
    [.element (.component (some "Card.Header")) [] none, .null] rfl)

/-- C7: primitive markup elements (string type-tag) pass through
unchanged in any mode, without augmentation and without recursion into
their children, and so do text, numeric and null children. -/
theorem C7_primitive_passthrough (cfg : Options) (s : String) (own : AttrSet)
    (ch : Option Node) (t : String) (n : Int) :
    enhanceChildren cfg (.element (.primitive s) own ch) = .element (.primitive s) own ch
    ∧ enhanceChildren cfg (.text t) = .text t
    ∧ enhanceChildren cfg (.num n) = .num n
    ∧ enhanceChildren cfg .null = .null := by
  refine ⟨?_, ?_, ?_, ?_⟩
  · rw [enhanceChildren, childrenMap_elem, enhance_primitive]
  · rw [enhanceChildren, childrenMap_text]
  · rw [enhanceChildren, childrenMap_num]
  · rw [enhanceChildren, childrenMap_null]

/-- C8: when both mapProps and props are supplied, the hook behaves
exactly as if only mapProps had been supplied: the runtime check only
tests for the presence of mapProps, so the props field never influences
the output. -/
theorem C8_props_silently_ignored (m : MapProps) (p : AttrSet) (T : Node) :
    enhanceChildren ⟨some m, some p⟩ T = enhanceChildren ⟨some m, none⟩ T :=
  (props_ignored_with_mapProps m p T).2

/-- C9: a component node without a displayName is looked up under the
empty string, so an empty-string key in mapProps with a non-empty
attribute set augments every unnamed component node with that set. -/
theorem C9_empty_string_key (m : MapProps) (ip : AttrSet) (own : AttrSet)
    (ch : Option Node) (hlookup : lookupMap m "" = some ip) (hne : ip ≠ []) :
    enhance ⟨some m, none⟩ (.element (.component none) own ch)
      = .element (.component none) (cloneProps own (mergeAttrs ip own)) ch := by
  have h : (effCandidate ⟨some m, none⟩ ((none : Option String).getD "")).isEmpty = false := by
    simp [effCandidate, candidate, hlookup, hne]
  rw [enhance_matched _ _ _ _ h]
  have he : effCandidate ⟨some m, none⟩ ((none : Option String).getD "") = ip := by
    simp [effCandidate, candidate, hlookup]
  rw [he]

/-- Witness for C9: the empty-string entry reaches an unnamed node. -/
theorem C9_witness :
    enhance ⟨some [("", [("title", Value.str "T")])], none⟩
        (.element (.component none) [] none)
      = .element (.component none) [("title", Value.str "T")] none :=
  C9_empty_string_key [("", [("title", Value.str "T")])] [("title", Value.str "T")]
    [] none rfl (by decide)

/-- C10: the enhancement is idempotent: re-applying the same traversal
to its own output changes nothing, because every previously injected key
is then an own key and own keys win.  The hypothesis states that every
props object inside the options has pairwise distinct keys, which is
true of every actual JS object. -/
theorem C10_idempotent (cfg : Options) (T : Node) (hWF : optionsWF cfg) :
    enhanceChildren cfg (enhanceChildren cfg T) = enhanceChildren cfg T :=
  (enhance_idem cfg hWF T).2

/-- Witness for C10 at a broadcast configuration and a small tree. -/
theorem C10_witness :
    enhanceChildren ⟨none, some [("title", Value.str "T")]⟩
      (enhanceChildren ⟨none, some [("title", Value.str "T")]⟩
        (.list [.element (.component (some "Card.Header")) [("id", Value.str "x")] none, .null]))
      = enhanceChildren ⟨none, some [("title", Value.str "T")]⟩
        (.list [.element (.component (some "Card.Header")) [("id", Value.str "x")] none, .null]) := by
  apply C10_idempotent
  constructor
  · intro m hm
    cases hm
  · intro p hp
    rw [Option.some_inj] at hp
    subst hp
    unfold attrsWF
    decide

end EnhanceChildren
